import Mathlib

/-!
Verification development for the LocalWhisper speech-to-text server:
`scripts/transcribe.py` (persistent Qwen3-ASR transcription server) and
`scripts/compare_mel.py` (mel-spectrogram reference comparison script).

Shallow-embedding conventions:
* Python integers are `Int` (`ℤ`); Python floor division `//` (and
  `_floor_div`, which is `mx.floor(a / b)` on integer inputs) is `Int.fdiv`;
  Python `%` with positive modulus agrees with `Int.emod` (Lean `%`).
* Lists model 1-D arrays; a matrix entry of the attention mask is modelled
  by the function `blockMaskEntry` from (row, column) to its value.
* The MLX float constants `-1e9` and `0.0` used by the attention mask are
  exactly representable, so mask entries are modelled in `ℤ`.
* The stdin protocol loop of `main` is modelled as a pure transition
  function over classified input lines (`StdinLine`): `blank` stands for a
  line that is empty after `line.strip()`, `invalidJson` for a line that
  raises `json.JSONDecodeError`, and `request` for a decoded JSON object
  (fields `cmd`, `wav`, `language`, each absent-or-string; a `wav` value
  that is falsy in Python is modelled by `truthyWav` returning `none`).
  Process-wide state (the loaded model, the filesystem) is the read-only
  environment `ServerEnv`; side effects are a `ServerEvent` trace where
  `ranInference` marks that feature extraction / encoding / decoding ran.
* `numpy.hanning` is embedded over `ℝ` by its documented closed form
  `w(n) = 1/2 - 1/2 cos(2 π n / (M - 1))` for `0 ≤ n ≤ M - 1`.
-/

/-- Mirror of `_floor_div` in `scripts/transcribe.py`:
`mx.floor(a.astype(float32) / b).astype(int32)`, i.e. floor division. -/
def floorDiv (a b : ℤ) : ℤ := Int.fdiv a b

/-- Mirror of `_get_feat_extract_output_lengths` in `scripts/transcribe.py`
(single scalar entry of the array): the audio-encoder output length for a
mel feature length.  Python `%` and `//` agree with `Int.emod` and
`floorDiv` for the positive divisors used here. -/
def getFeatExtractOutputLengths (inputLength : ℤ) : ℤ :=
  let inputLengthsLeave : ℤ := inputLength % 100
  let featLengths : ℤ := floorDiv (inputLengthsLeave - 1) 2 + 1
  floorDiv (floorDiv (featLengths - 1) 2 + 1 - 1) 2 + 1 + floorDiv inputLength 100 * 13

/-- The output-length formula exactly as claim C1 states it:
`floor((floor(((L mod 100) - 1)/2) + 1 - 1)/2) + 1 + (L div 100) * 13`.
Note this applies only two halving steps to `(L mod 100)`. -/
def c1StatedFormula (L : ℤ) : ℤ :=
  floorDiv (floorDiv (L % 100 - 1) 2 + 1 - 1) 2 + 1 + floorDiv L 100 * 13

/-- Corrected closed-form output-length formula: three halving steps (one
per stride-2 convolution) applied to `(L mod 100)`, plus 13 per full
hundred of input frames.  This is the full expansion of
`_get_feat_extract_output_lengths`. -/
def correctedOutputLengthFormula (L : ℤ) : ℤ :=
  floorDiv (floorDiv (floorDiv (L % 100 - 1) 2 + 1 - 1) 2 + 1 - 1) 2 + 1 +
    floorDiv L 100 * 13

/-- The `hann_type` value selecting the "periodic" branch of
`compute_mel_manual` in `scripts/compare_mel.py`. -/
def hannPeriodicName : String := "periodic"

/-- The other `hann_type` value, documented as "symmetric" in
`scripts/compare_mel.py`. -/
def hannSymmetricName : String := "symmetric"

/-- Mirror of `numpy.hanning(M)` at index `n`: numpy returns the
length-`M` symmetric Hann window `w(n) = 0.5 - 0.5 cos(2 π n / (M - 1))`
for `0 ≤ n ≤ M - 1`. -/
noncomputable def npHanning (M : ℕ) (n : ℕ) : ℝ :=
  1 / 2 - 1 / 2 * Real.cos (2 * Real.pi * n / ((M : ℝ) - 1))

/-- Mirror of the window construction in `compute_mel_manual`
(`scripts/compare_mel.py`, lines 131-136): the "periodic" branch is
`np.hanning(n_fft)`; the other branch is `np.hanning(n_fft + 1)[:-1]`,
i.e. `npHanning (nfft + 1) n` restricted to `n < nfft`. -/
noncomputable def melWindow (nfft : ℕ) (hannType : String) (n : ℕ) : ℝ :=
  if hannType = hannPeriodicName then npHanning nfft n else npHanning (nfft + 1) n

/-- Mirror of the per-recording part of `AudioEncoder._compute_chunk_layout`
(`scripts/transcribe.py`): the list of chunk lengths for one recording of
`featLen` mel frames with the given chunk size.  `np.ceil` on the exact
float quotient of machine-size ints is the integer ceiling. -/
def chunkLayout (featLen chunkSize : ℕ) : List ℕ :=
  let numChunks := (featLen + chunkSize - 1) / chunkSize
  (List.range numChunks).map fun j =>
    if j = numChunks - 1 then
      (if featLen % chunkSize = 0 then chunkSize else featLen % chunkSize)
    else chunkSize

/-- Output length of `_get_feat_extract_output_lengths` as a natural
number (the code stores it in an int32 array of nonnegative lengths;
nonnegativity for `1 ≤ L` is proved in `afterCnnLen_cast`). -/
def afterCnnLen (L : ℕ) : ℕ := (getFeatExtractOutputLengths (L : ℤ)).toNat

/-- Partial sums with accumulator, the recursion underlying `np.cumsum`. -/
def cumsumFrom (acc : ℕ) : List ℕ → List ℕ
  | [] => []
  | x :: xs => (acc + x) :: cumsumFrom (acc + x) xs

/-- Mirror of `np.cumsum` on a list of naturals. -/
def cumsum (l : List ℕ) : List ℕ := cumsumFrom 0 l

/-- Mirror of `AudioEncoder._build_cu_seqlens` (`scripts/transcribe.py`):
starting from `[0]`, each after-cnn length contributes `len // W` full
windows of size `W` followed by the nonzero remainder, and the result is
the cumulative sum. -/
def buildCuSeqlens (aftercnnLens : List ℕ) (windowAftercnn : ℕ) : List ℕ :=
  cumsum ((0 : ℕ) :: aftercnnLens.flatMap fun cnnLen =>
    List.replicate (cnnLen / windowAftercnn) windowAftercnn ++
      (if cnnLen % windowAftercnn ≠ 0 then [cnnLen % windowAftercnn] else []))

/-- The window-segment lengths `_build_cu_seqlens` generates for a single
after-cnn length `T` and window `W`: `T / W` full windows followed by the
nonzero remainder. -/
def lensFor (T W : ℕ) : List ℕ :=
  List.replicate (T / W) W ++ (if T % W ≠ 0 then [T % W] else [])

/-- Mirror of `AudioEncoder._create_block_attention_mask`
(`scripts/transcribe.py`): entry `(q, k)` of the mask.  The mask starts
at `-1e9` everywhere and the loop over consecutive `cu_seqlens` pairs
`(start, end)` overwrites the square `[start:end) × [start:end)` with 0;
the fold replays those assignments in order. -/
def blockMaskEntry (cuSeqlens : List ℕ) (q k : ℕ) : ℤ :=
  (cuSeqlens.zip cuSeqlens.tail).foldl
    (fun acc se => if se.1 ≤ q ∧ q < se.2 ∧ se.1 ≤ k ∧ k < se.2 then 0 else acc)
    (-1000000000)

/-- The `cu_seqlens` the encoder builds in `AudioEncoder.__call__` for a
single recording of `featLen` mel frames: chunk size is `n_window * 2`,
the window after the convolutions is `max_len_after_cnn *
(n_window_infer // (n_window * 2))`, and the cumulative boundaries come
from `_build_cu_seqlens` applied to the recording's after-cnn length. -/
def encoderCuSeqlens (featLen nWindow nWindowInfer : ℕ) : List ℕ :=
  let chunkSize := nWindow * 2
  let chunkLens := chunkLayout featLen chunkSize
  let maxLenAfterCnn := (chunkLens.map afterCnnLen).foldl max 0
  let windowAftercnn := maxLenAfterCnn * (nWindowInfer / (nWindow * 2))
  buildCuSeqlens [afterCnnLen featLen] windowAftercnn

/-- Helper for reasoning about `cumsum`: the list of half-open segment
intervals `(start, end)` described by consecutive cumulative sums,
starting at `base`. -/
def segPairsFrom (base : ℕ) : List ℕ → List (ℕ × ℕ)
  | [] => []
  | l :: ls => (base, base + l) :: segPairsFrom (base + l) ls

/-- Time-axis length after one `Conv2d(kernel_size=3, stride=2, padding=1)`
of `AudioEncoder`: `floor((t + 2*1 - 3)/2) + 1 = (t - 1)/2 + 1`. -/
def convLenNat (t : ℕ) : ℕ := (t - 1) / 2 + 1

/-- Time-axis length after the three stride-2 convolutions
`conv2d1`, `conv2d2`, `conv2d3` of `AudioEncoder`. -/
def convLen3 (t : ℕ) : ℕ := convLenNat (convLenNat (convLenNat t))

/-- Mirror of a single `arr.at[i].add(v)` update on a 1-D array. -/
def addAt (l : List ℤ) (i : ℕ) (v : ℤ) : List ℤ := l.set i (l.getD i 0 + v)

/-- Mirror of `arr.at[indices].add(values)` in `transcribe_audio`
(`scripts/transcribe.py`): sequential scatter-add of `vals` at `idx`. -/
def scatterAdd (base : List ℤ) (idx : List ℕ) (vals : List ℤ) : List ℤ :=
  (idx.zip vals).foldl (fun acc p => addAt acc p.1 p.2) base

/-- Mirror of `np.nonzero(np.array(audio_token_mask.reshape(-1)))[0]` in
`transcribe_audio`: the ascending positions of the audio pad token in the
flattened prompt. -/
def audioTokenIndices (ids : List ℤ) (audioTokenId : ℤ) : List ℕ :=
  (List.range ids.length).filter fun i => ids.getD i 0 = audioTokenId

/-- Mirror of the audio-embedding splicing block of `transcribe_audio`
(`scripts/transcribe.py`, lines 706-727).  Hidden vectors are modelled by
single `ℤ` values (every tensor operation involved acts position-wise and
uniformly over the hidden dimension).  `num_to_replace` is the minimum of
the placeholder count and the audio-embedding count; a zero tensor is
scatter-added with the first `num_to_replace` audio embeddings at the
first `num_to_replace` placeholder positions, a zero mask is scatter-added
with ones there, and `mx.where(mask > 0, replacement, flat_embeds)`
selects between the two. -/
def spliceAudioEmbeddings (audioTokenId : ℤ) (ids embeds audio : List ℤ) : List ℤ :=
  let indices := audioTokenIndices ids audioTokenId
  if 0 < indices.length then
    let n := min indices.length audio.length
    let idxTaken := indices.take n
    let replacement := scatterAdd (List.replicate embeds.length 0) idxTaken (audio.take n)
    let maskArr := scatterAdd (List.replicate embeds.length 0) idxTaken (List.replicate n 1)
    (List.range embeds.length).map fun i =>
      if 0 < maskArr.getD i 0 then replacement.getD i 0 else embeds.getD i 0
  else embeds

/-- The weight-path root of the audio tower, excluded from quantization in
`load_model` (`scripts/transcribe.py`). -/
def audioTowerName : String := "audio_tower"

/-- Suffix of quantization-scale weight keys checked by `class_predicate`. -/
def scalesSuffix : String := ".scales"

/-- A weight path used by counterexamples: a text-model linear projection. -/
def modelKeyStr : String := "model.layers.0.self_attn.q_proj"

/-- The observable attributes of a candidate module that `class_predicate`
in `load_model` consults: whether it has `to_quantized`, and the element
count of its `weight` attribute if it has one. -/
structure QuantModuleInfo where
  supportsToQuantized : Bool
  weightSize : Option ℕ
deriving DecidableEq

/-- The optional `quantization` block of `config.json`. -/
structure QuantConfig where
  groupSize : ℕ
  bits : ℕ
deriving DecidableEq

/-- Mirror of `class_predicate` in `load_model` (`scripts/transcribe.py`,
lines 629-636): no `to_quantized` attribute, a weight whose element count
is not a multiple of the literal 64, or an `audio_tower` path disqualify;
otherwise eligibility requires `f"{p}.scales"` among the loaded weight
keys.  Python `p.startswith("audio_tower")` is modelled as a character
prefix test. -/
def classPredicateQuant (weightKeys : List String) (path : String)
    (m : QuantModuleInfo) : Bool :=
  if m.supportsToQuantized = false then false
  else if (m.weightSize.elim false fun s => s % 64 != 0) then false
  else if audioTowerName.toList.isPrefixOf path.toList then false
  else weightKeys.contains (path ++ scalesSuffix)

/-- Whether `nn.quantize` quantizes the module at `path`: `load_model`
passes `cfg.groupSize` and `cfg.bits` to `nn.quantize`, but eligibility is
decided by `class_predicate` alone, which never consults `cfg`. -/
def quantizeApplied (cfg : QuantConfig) (weightKeys : List String) (path : String)
    (m : QuantModuleInfo) : Bool :=
  classPredicateQuant weightKeys path m

/-- Header data and payload of a WAV file as read by the `wave` module. -/
structure WavFileData where
  nchannels : ℕ
  sampwidth : ℕ
  framerate : ℕ
  samples : List ℤ

/-- The distinct failure modes of `load_wav` (`scripts/transcribe.py`):
`wave.open` raising on a missing/unreadable file, and the three format
assertions. -/
inductive LoadWavError
  | fileNotFound (path : String)
  | notMono (n : ℕ)
  | not16Bit (w : ℕ)
  | not16kHz (r : ℕ)

/-- Mirror of `load_wav` (`scripts/transcribe.py`, lines 753-767): open,
assert mono / 16-bit / 16 kHz in that order, then scale int16 frames by
`1/32768`. -/
def loadWav (fs : String → Option WavFileData) (path : String) :
    Except LoadWavError (List ℚ) :=
  match fs path with
  | none => Except.error (LoadWavError.fileNotFound path)
  | some w =>
    if w.nchannels ≠ 1 then Except.error (LoadWavError.notMono w.nchannels)
    else if w.sampwidth ≠ 2 then Except.error (LoadWavError.not16Bit w.sampwidth)
    else if w.framerate ≠ 16000 then Except.error (LoadWavError.not16kHz w.framerate)
    else Except.ok (w.samples.map fun v => (v : ℚ) / 32768)

/-- A decoded JSON request object: the `cmd`, `wav` and `language` fields
consulted by `main` (`scripts/transcribe.py`). -/
structure JsonRequest where
  cmd : Option String
  wav : Option String
  language : Option String

/-- A classified stdin line (see the module docstring). -/
inductive StdinLine
  | blank
  | invalidJson (raw : String)
  | request (r : JsonRequest)

/-- The error payloads `main` can emit as `{"error": ...}` objects. -/
inductive ProtoError
  | invalidJson (raw : String)
  | unknownCommand (c : String)
  | missingWav
  | wavError (e : LoadWavError)

/-- One observable event of the serving loop: a protocol line written to
stdout (`ready`, `text`, or an error object), or the fact that inference
ran for the current request. -/
inductive ServerEvent
  | outReady
  | outText (s : String)
  | outError (e : ProtoError)
  | ranInference

/-- Read-only process state shared by all requests: the filesystem view
and the loaded model (abstracted as the text produced by
`transcribe_audio` from samples and language). -/
structure ServerEnv where
  fs : String → Option WavFileData
  transcribe : List ℚ → String → String

/-- Python truthiness of the `wav` field: `request.get("wav")` is falsy
when the key is absent or the value is an empty string. -/
def truthyWav : Option String → Option String
  | none => none
  | some s => if s.isEmpty then none else some s

/-- The `ping` command string. -/
def pingCmd : String := "ping"

/-- The `quit` command string. -/
def quitCmd : String := "quit"

/-- Default of `request.get("language", "English")`. -/
def defaultLanguage : String := "English"

/-- Mirror of the request-dispatch part of `main`
(`scripts/transcribe.py`, lines 821-858): returns the emitted events and
whether the read loop continues. -/
def handleRequest (env : ServerEnv) (r : JsonRequest) : List ServerEvent × Bool :=
  match r.cmd with
  | some c =>
    if c = pingCmd then ([ServerEvent.outReady], true)
    else if c = quitCmd then ([], false)
    else ([ServerEvent.outError (ProtoError.unknownCommand c)], true)
  | none =>
    match truthyWav r.wav with
    | none => ([ServerEvent.outError ProtoError.missingWav], true)
    | some path =>
      match loadWav env.fs path with
      | Except.error e => ([ServerEvent.outError (ProtoError.wavError e)], true)
      | Except.ok audio =>
        ([ServerEvent.ranInference,
          ServerEvent.outText (env.transcribe audio (r.language.getD defaultLanguage))],
         true)

/-- Mirror of one iteration of the `for line in sys.stdin` loop of `main`:
blank lines are skipped silently, undecodable lines produce one error
object, decoded objects are dispatched. -/
def handleLine (env : ServerEnv) : StdinLine → List ServerEvent × Bool
  | StdinLine.blank => ([], true)
  | StdinLine.invalidJson raw => ([ServerEvent.outError (ProtoError.invalidJson raw)], true)
  | StdinLine.request r => handleRequest env r

/-- The whole read loop of `main` over a finite stdin: concatenates each
line's events, stopping (with no further events) when a line breaks the
loop. -/
def runServer (env : ServerEnv) : List StdinLine → List ServerEvent
  | [] => []
  | l :: ls =>
    let res := handleLine env l
    res.1 ++ (if res.2 then runServer env ls else [])

/-- Whether a raw line is empty after `line.strip()`: it consists only of
whitespace characters. -/
def stripsToBlank (s : String) : Bool := s.toList.all fun ch => ch.isWhitespace

/-- Classification of a raw stdin line, parameterised by an abstract JSON
decoder (`none` models `json.JSONDecodeError`). -/
def classifyLine (decodeJson : String → Option JsonRequest) (s : String) : StdinLine :=
  if stripsToBlank s then StdinLine.blank
  else
    match decodeJson s with
    | none => StdinLine.invalidJson s
    | some r => StdinLine.request r

/-- The malformed-line condition of claim C6: not valid JSON, or a `cmd`
value that is neither `ping` nor `quit`, or neither a `cmd` key nor a
non-empty `wav` value. -/
def isMalformedLine : StdinLine → Prop
  | StdinLine.blank => False
  | StdinLine.invalidJson _ => True
  | StdinLine.request r =>
    (∃ c, r.cmd = some c ∧ c ≠ pingCmd ∧ c ≠ quitCmd) ∨
      (r.cmd = none ∧ truthyWav r.wav = none)

/-- The invalid-WAV condition of claim C7: file missing, or not mono, not
16-bit, or not sampled at 16000 Hz. -/
def badWavAt (fs : String → Option WavFileData) (path : String) : Prop :=
  fs path = none ∨
    ∃ w, fs path = some w ∧
      (w.nchannels ≠ 1 ∨ w.sampwidth ≠ 2 ∨ w.framerate ≠ 16000)

/-- An all-whitespace sample line. -/
def spacesStr : String := "   "

/-- The empty string. -/
def emptyStr : String := ""

/-- Nonnegativity bridge: for mel lengths `1 ≤ L` the int32 output length
is nonnegative, so the `ℕ`-valued `afterCnnLen` casts back to the `ℤ`
formula. -/
theorem afterCnnLen_cast (L : ℕ) (h : 1 ≤ L) :
    (afterCnnLen L : ℤ) = getFeatExtractOutputLengths (L : ℤ) := by
  have h2 : (0:ℤ) ≤ 2 := by norm_num
  have h100 : (0:ℤ) ≤ 100 := by norm_num
  have hnn : 0 ≤ getFeatExtractOutputLengths (L : ℤ) := by
    simp only [getFeatExtractOutputLengths, floorDiv, Int.fdiv_eq_ediv _ h2,
      Int.fdiv_eq_ediv _ h100]
    omega
  simpa [afterCnnLen] using Int.toNat_of_nonneg hnn

/-- C1, counterexample: at mel length 99 the code computes output length
13 (three halvings of 98, then +1), while the formula stated in the claim
(only two halvings) yields 25. -/
theorem c1_counterexample :
    getFeatExtractOutputLengths 99 = 13 ∧ c1StatedFormula 99 = 25 ∧
      getFeatExtractOutputLengths 99 ≠ c1StatedFormula 99 := by
  refine ⟨by decide, by decide, by decide⟩

/-- C1, amended: for every mel feature length `L ≥ 1` the code's output
length equals the three-halving closed form
`floor((floor((floor(((L mod 100) - 1)/2) + 1 - 1)/2) + 1 - 1)/2) + 1 +
(L div 100) * 13`; adding 100 input frames adds exactly 13 to the output
length; and for some `L` the result differs from the plain division
`floor(L/8)`. -/
theorem c1_output_length_amended (L : ℤ) (hL : 1 ≤ L) :
    getFeatExtractOutputLengths L = correctedOutputLengthFormula L ∧
    getFeatExtractOutputLengths (L + 100) = getFeatExtractOutputLengths L + 13 ∧
    ∃ M : ℤ, 1 ≤ M ∧ getFeatExtractOutputLengths M ≠ floorDiv M 8 := by
  have h2 : (0:ℤ) ≤ 2 := by norm_num
  have h100 : (0:ℤ) ≤ 100 := by norm_num
  refine ⟨rfl, ?_, ⟨100, by norm_num, by decide⟩⟩
  simp only [getFeatExtractOutputLengths, floorDiv, Int.fdiv_eq_ediv _ h2,
    Int.fdiv_eq_ediv _ h100]
  omega

/-- Witness for `c1_output_length_amended` at the concrete length 5. -/
theorem c1_output_length_amended_witness :
    getFeatExtractOutputLengths 5 = correctedOutputLengthFormula 5 ∧
    getFeatExtractOutputLengths (5 + 100) = getFeatExtractOutputLengths 5 + 13 ∧
    ∃ M : ℤ, 1 ≤ M ∧ getFeatExtractOutputLengths M ≠ floorDiv M 8 :=
  c1_output_length_amended 5 (by norm_num)

/-- C2, code-bug evidence: every sample of the length-400 window produced
by the "periodic" branch of `compute_mel_manual` (which calls
`np.hanning(400)`, the symmetric window) is strictly less than 1, so its
maximum is not 1.0 as the claim requires; the branch labelled "symmetric"
(`np.hanning(401)[:-1]`, which is in fact the periodic window) attains
exactly 1 at index 200. -/
theorem c2_window_code_bug :
    (∀ n : ℕ, n < 400 → melWindow 400 hannPeriodicName n < 1) ∧
    melWindow 400 hannSymmetricName 200 = 1 := by
  constructor
  · intro n _hn
    have hsel : melWindow 400 hannPeriodicName n = npHanning 400 n := by
      simp [melWindow]
    rw [hsel]
    unfold npHanning
    have hge : -1 ≤ Real.cos (2 * Real.pi * n / (((400:ℕ):ℝ) - 1)) :=
      Real.neg_one_le_cos _
    rcases lt_or_eq_of_le hge with hlt | heq
    · linarith
    · exfalso
      have h1 : Real.cos (2 * Real.pi * n / (((400:ℕ):ℝ) - 1) - Real.pi) = 1 := by
        rw [Real.cos_sub_pi]
        linarith
      obtain ⟨k, hk⟩ := (Real.cos_eq_one_iff _).mp h1
      have hπ : Real.pi ≠ 0 := Real.pi_ne_zero
      have hden : (((400:ℕ):ℝ) - 1) = 399 := by norm_num
      rw [hden] at hk
      have h3 : (2 * (n:ℝ)) * Real.pi = (798 * (k:ℝ) + 399) * Real.pi := by
        field_simp at hk
        nlinarith [hk]
      have h4 : (2 * (n:ℝ)) = 798 * (k:ℝ) + 399 := mul_right_cancel₀ hπ h3
      have h5 : (2 * (n:ℤ)) = 798 * k + 399 := by exact_mod_cast h4
      omega
  · have hsel : melWindow 400 hannSymmetricName 200 = npHanning 401 200 := by
      have hne : hannSymmetricName ≠ hannPeriodicName := by decide
      simp [melWindow, hne]
    rw [hsel]
    unfold npHanning
    have h : 2 * Real.pi * ((200:ℕ):ℝ) / (((401:ℕ):ℝ) - 1) = Real.pi := by
      push_cast
      ring
    rw [h, Real.cos_pi]
    norm_num

/-- Witness for `c2_window_code_bug` at index 199 (where the symmetric
window is largest). -/
theorem c2_window_code_bug_witness :
    melWindow 400 hannPeriodicName 199 < 1 ∧
    melWindow 400 hannSymmetricName 200 = 1 :=
  ⟨c2_window_code_bug.1 199 (by norm_num), c2_window_code_bug.2⟩

/-- Zipping a cumulative-sum list with its tail yields the segment
intervals. -/
theorem zip_cumsumFrom (L : List ℕ) (b : ℕ) :
    (b :: cumsumFrom b L).zip (cumsumFrom b L) = segPairsFrom b L := by
  induction L generalizing b with
  | nil => rfl
  | cons x xs ih =>
    show (b :: (b + x) :: cumsumFrom (b + x) xs).zip
        ((b + x) :: cumsumFrom (b + x) xs) = (b, b + x) :: segPairsFrom (b + x) xs
    rw [List.zip_cons_cons, ih]

/-- The overwrite fold of `_create_block_attention_mask` leaves 0 exactly
when some processed interval contains both positions. -/
theorem foldl_mask_eq (ps : List (ℕ × ℕ)) (q k : ℕ) (a : ℤ) :
    ps.foldl (fun acc se => if se.1 ≤ q ∧ q < se.2 ∧ se.1 ≤ k ∧ k < se.2 then 0 else acc) a =
      if ∃ se ∈ ps, se.1 ≤ q ∧ q < se.2 ∧ se.1 ≤ k ∧ k < se.2 then 0 else a := by
  induction ps generalizing a with
  | nil => simp
  | cons p ps ih =>
    rw [List.foldl_cons]
    by_cases hp : p.1 ≤ q ∧ q < p.2 ∧ p.1 ≤ k ∧ k < p.2
    · have hmem : ∃ se ∈ p :: ps, se.1 ≤ q ∧ q < se.2 ∧ se.1 ≤ k ∧ k < se.2 :=
        ⟨p, List.mem_cons_self p ps, hp⟩
      rw [if_pos hp, ih, if_pos hmem, ite_self]
    · rw [if_neg hp, ih]
      have hiff : (∃ se ∈ p :: ps, se.1 ≤ q ∧ q < se.2 ∧ se.1 ≤ k ∧ k < se.2) ↔
          (∃ se ∈ ps, se.1 ≤ q ∧ q < se.2 ∧ se.1 ≤ k ∧ k < se.2) := by
        constructor
        · rintro ⟨se, hm, hc⟩
          rcases List.mem_cons.mp hm with h | h
          · exact absurd (h ▸ hc) hp
          · exact ⟨se, h, hc⟩
        · rintro ⟨se, hm, hc⟩
          exact ⟨se, List.mem_cons_of_mem p hm, hc⟩
      rw [if_congr hiff rfl rfl]

/-- Segment intervals of an appended length list. -/
theorem segPairsFrom_append (L1 L2 : List ℕ) (b : ℕ) :
    segPairsFrom b (L1 ++ L2) = segPairsFrom b L1 ++ segPairsFrom (b + L1.sum) L2 := by
  induction L1 generalizing b with
  | nil => simp [segPairsFrom]
  | cons x xs ih =>
    show (b, b + x) :: segPairsFrom (b + x) (xs ++ L2) = _
    rw [ih]
    show _ = (b, b + x) :: (segPairsFrom (b + x) xs ++ segPairsFrom (b + (x :: xs).sum) L2)
    rw [List.sum_cons, ← Nat.add_assoc]

/-- Segment intervals of `f` windows of equal width `W`. -/
theorem mem_segPairsFrom_replicate (f W b : ℕ) (se : ℕ × ℕ) :
    se ∈ segPairsFrom b (List.replicate f W) ↔
      ∃ i, i < f ∧ se = (b + W * i, b + W * i + W) := by
  induction f generalizing b with
  | zero => simp [segPairsFrom]
  | succ f ih =>
    rw [List.replicate_succ]
    show se ∈ (b, b + W) :: segPairsFrom (b + W) (List.replicate f W) ↔ _
    rw [List.mem_cons, ih]
    constructor
    · rintro (h | ⟨i, hi, h⟩)
      · exact ⟨0, Nat.succ_pos f, by simpa using h⟩
      · refine ⟨i + 1, by omega, ?_⟩
        rw [h]
        exact Prod.ext_iff.mpr ⟨by ring, by ring⟩
    · rintro ⟨i, hi, h⟩
      cases i with
      | zero => left; simpa using h
      | succ i =>
        right
        refine ⟨i, by omega, ?_⟩
        rw [h]
        exact Prod.ext_iff.mpr ⟨by ring, by ring⟩

/-- `_build_cu_seqlens` on a single recording reduces to the cumulative
sums of `lensFor`. -/
theorem buildCu_single (T W : ℕ) :
    buildCuSeqlens [T] W = cumsum ((0 : ℕ) :: lensFor T W) := by
  simp [buildCuSeqlens, lensFor]

/-- A mask entry over cumulative boundaries, rephrased through the
segment intervals. -/
theorem blockMaskEntry_cumsum (L : List ℕ) (q k : ℕ) :
    blockMaskEntry (cumsum ((0 : ℕ) :: L)) q k =
      if ∃ se ∈ segPairsFrom 0 L, se.1 ≤ q ∧ q < se.2 ∧ se.1 ≤ k ∧ k < se.2 then 0
      else -1000000000 := by
  have hcu : cumsum ((0 : ℕ) :: L) = 0 :: cumsumFrom 0 L := by
    show cumsumFrom 0 ((0 : ℕ) :: L) = _
    show (0 + 0) :: cumsumFrom (0 + 0) L = _
    norm_num
  rw [blockMaskEntry, hcu]
  show ((0 :: cumsumFrom 0 L).zip (cumsumFrom 0 L)).foldl _ _ = _
  rw [zip_cumsumFrom L 0, foldl_mask_eq]

/-- Division bounds: `q` lies in the window `[W * (q/W), W * (q/W) + W)`. -/
theorem div_window_bounds (q W : ℕ) (hW : 0 < W) :
    W * (q / W) ≤ q ∧ q < W * (q / W) + W := by
  have h1 : W * (q / W) + q % W = q := Nat.div_add_mod q W
  have h2 : q % W < W := Nat.mod_lt q hW
  refine ⟨Nat.le.intro h1, ?_⟩
  calc q = W * (q / W) + q % W := h1.symm
    _ < W * (q / W) + W := Nat.add_lt_add_left h2 _

/-- Conversely, membership in a window determines the quotient. -/
theorem div_eq_of_window (q i W : ℕ) (hW : 0 < W) (h1 : W * i ≤ q)
    (h2 : q < W * i + W) : q / W = i := by
  have ha : i ≤ q / W := by
    refine (Nat.le_div_iff_mul_le hW).mpr ?_
    rw [Nat.mul_comm]
    exact h1
  have hb : q / W < i + 1 := by
    refine (Nat.div_lt_iff_lt_mul hW).mpr ?_
    rw [Nat.succ_mul, Nat.mul_comm]
    exact h2
  omega

/-- Every segment interval generated by `lensFor T W` is contained in a
single width-`W` window. -/
theorem segPairs_lensFor_sub (T W : ℕ) (hW : 0 < W) (se : ℕ × ℕ)
    (h : se ∈ segPairsFrom 0 (lensFor T W)) :
    ∃ i, se.1 = W * i ∧ se.2 ≤ W * i + W := by
  unfold lensFor at h
  rw [segPairsFrom_append, List.mem_append] at h
  rcases h with h | h
  · rw [mem_segPairsFrom_replicate] at h
    obtain ⟨i, _, hse⟩ := h
    refine ⟨i, ?_, ?_⟩ <;> rw [hse] <;> simp
  · have hsum : (List.replicate (T / W) W).sum = (T / W) * W := by
      simp [List.sum_replicate, smul_eq_mul]
    by_cases hr : T % W ≠ 0
    · rw [if_pos hr] at h
      rw [hsum] at h
      have hse : se = (0 + T / W * W, 0 + T / W * W + T % W) := by
        simpa [segPairsFrom] using h
      have hmod : T % W ≤ W := Nat.le_of_lt (Nat.mod_lt T hW)
      refine ⟨T / W, ?_, ?_⟩ <;> rw [hse]
      · simp [Nat.mul_comm]
      · simp [Nat.mul_comm]
        omega
    · rw [if_neg hr] at h
      simp [segPairsFrom] at h

/-- The `i`-th full window interval is generated by `lensFor T W`. -/
theorem segPairs_lensFor_mem_full (T W i : ℕ) (hi : i < T / W) :
    (W * i, W * i + W) ∈ segPairsFrom 0 (lensFor T W) := by
  unfold lensFor
  rw [segPairsFrom_append, List.mem_append]
  left
  rw [mem_segPairsFrom_replicate]
  exact ⟨i, hi, by simp⟩

/-- The remainder interval is generated by `lensFor T W` when `W` does not
divide `T`. -/
theorem segPairs_lensFor_mem_rem (T W : ℕ) (hr : T % W ≠ 0) :
    (W * (T / W), W * (T / W) + T % W) ∈ segPairsFrom 0 (lensFor T W) := by
  unfold lensFor
  rw [segPairsFrom_append, List.mem_append]
  right
  rw [if_pos hr]
  have hsum : (List.replicate (T / W) W).sum = (T / W) * W := by
    simp [List.sum_replicate, smul_eq_mul]
  rw [hsum]
  show _ ∈ (0 + T / W * W, 0 + T / W * W + T % W) :: segPairsFrom _ []
  simp [Nat.mul_comm]

/-- C3, counterexample: for a recording of 200 mel frames the encoder
splits the features into the two chunks `[100, 100]` (so `N = 2 > 1`),
whose convolution outputs occupy after-cnn positions `0..12` and `13..25`
respectively; yet with the default configuration (`n_window = 50`,
`n_window_infer = 800`) the attention window is `13 * 8 = 104 ≥ 26`, the
cumulative boundaries are `[0, 26]`, and the mask entry at the
cross-chunk pair `(12, 13)` is 0, not `-1e9`. -/
theorem c3_counterexample :
    chunkLayout 200 100 = [100, 100] ∧
    (chunkLayout 200 100).map afterCnnLen = [13, 13] ∧
    afterCnnLen 200 = 26 ∧
    encoderCuSeqlens 200 50 800 = [0, 26] ∧
    blockMaskEntry (encoderCuSeqlens 200 50 800) 12 13 = 0 := by
  refine ⟨by decide, by decide, by decide, by decide, by decide⟩

/-- C3, amended: for the block mask the encoder builds from
`_build_cu_seqlens` over a single recording of after-cnn length `T` with
attention-window width `W ≥ 1`, two positions `q, k < T` get the additive
bias 0 when they lie in the same width-`W` attention window and `-1e9`
when they lie in different windows; when a single window covers the whole
recording (`T ≤ W`, i.e. `N = 1`) the mask is zero everywhere. -/
theorem c3_block_mask_amended (T W q k : ℕ) (hW : 1 ≤ W) (hq : q < T) (hk : k < T) :
    (q / W = k / W → blockMaskEntry (buildCuSeqlens [T] W) q k = 0) ∧
    (q / W ≠ k / W → blockMaskEntry (buildCuSeqlens [T] W) q k = -1000000000) ∧
    (T ≤ W → blockMaskEntry (buildCuSeqlens [T] W) q k = 0) := by
  have hW0 : 0 < W := hW
  rw [buildCu_single, blockMaskEntry_cumsum]
  have hsame : q / W = k / W →
      ∃ se ∈ segPairsFrom 0 (lensFor T W), se.1 ≤ q ∧ q < se.2 ∧ se.1 ≤ k ∧ k < se.2 := by
    intro heq
    obtain ⟨hq1, hq2⟩ := div_window_bounds q W hW0
    obtain ⟨hk1, hk2⟩ := div_window_bounds k W hW0
    rw [← heq] at hk1 hk2
    have hile : q / W ≤ T / W := Nat.div_le_div_right (Nat.le_of_lt hq)
    rcases Nat.lt_or_ge (q / W) (T / W) with hcase | hcase
    · exact ⟨(W * (q / W), W * (q / W) + W), segPairs_lensFor_mem_full T W _ hcase,
        hq1, hq2, hk1, hk2⟩
    · have hieq : q / W = T / W := Nat.le_antisymm hile hcase
      have hTsplit : W * (T / W) + T % W = T := Nat.div_add_mod T W
      have hr : T % W ≠ 0 := by
        intro h0
        rw [h0, Nat.add_zero] at hTsplit
        rw [hieq, hTsplit] at hq1
        omega
      refine ⟨(W * (T / W), W * (T / W) + T % W), segPairs_lensFor_mem_rem T W hr,
        ?_, ?_, ?_, ?_⟩
      · rw [← hieq]; exact hq1
      · rw [hTsplit]; exact hq
      · rw [← hieq]; exact hk1
      · rw [hTsplit]; exact hk
  have hdiff : q / W ≠ k / W →
      ¬∃ se ∈ segPairsFrom 0 (lensFor T W), se.1 ≤ q ∧ q < se.2 ∧ se.1 ≤ k ∧ k < se.2 := by
    intro hne
    rintro ⟨se, hmem, hc1, hc2, hc3, hc4⟩
    obtain ⟨i, hs1, hs2⟩ := segPairs_lensFor_sub T W hW0 se hmem
    have hqi : q / W = i := div_eq_of_window q i W hW0 (hs1 ▸ hc1) (by omega)
    have hki : k / W = i := div_eq_of_window k i W hW0 (hs1 ▸ hc3) (by omega)
    exact hne (hqi.trans hki.symm)
  refine ⟨fun heq => if_pos (hsame heq), fun hne => if_neg (hdiff hne), fun hTW => ?_⟩
  have heq : q / W = k / W := by
    rw [Nat.div_eq_of_lt (Nat.lt_of_lt_of_le hq hTW),
      Nat.div_eq_of_lt (Nat.lt_of_lt_of_le hk hTW)]
  exact if_pos (hsame heq)

/-- Witness for `c3_block_mask_amended` with `T = 26`, `W = 104` (one
window, as in the counterexample configuration) at positions 12 and 13. -/
theorem c3_block_mask_amended_witness :
    (12 / 104 = 13 / 104 → blockMaskEntry (buildCuSeqlens [26] 104) 12 13 = 0) ∧
    (12 / 104 ≠ 13 / 104 → blockMaskEntry (buildCuSeqlens [26] 104) 12 13 = -1000000000) ∧
    (26 ≤ 104 → blockMaskEntry (buildCuSeqlens [26] 104) 12 13 = 0) :=
  c3_block_mask_amended 26 104 12 13 (by norm_num) (by norm_num) (by norm_num)

/-- A range-map whose function is constant except at the final index. -/
theorem range_map_lastIf (n : ℕ) (hn : 1 ≤ n) (X c : ℕ) :
    ((List.range n).map fun j => if j = n - 1 then X else c) =
      List.replicate (n - 1) c ++ [X] := by
  obtain ⟨m, rfl⟩ : ∃ m, n = m + 1 := ⟨n - 1, by omega⟩
  rw [List.range_succ, List.map_append]
  simp only [Nat.add_sub_cancel]
  congr 1
  · have hconst : ∀ j ∈ List.range m, (if j = m then X else c) = c := by
      intro j hj
      exact if_neg (Nat.ne_of_lt (List.mem_range.mp hj))
    rw [List.map_congr_left hconst]
    have : List.map (fun _ => c) (List.range m) = List.replicate (List.range m).length c :=
      List.map_const' _ c
    rw [this, List.length_range]
  · simp

/-- Closed form of the per-recording chunk layout: `ceil(f/c) - 1` full
chunks followed by the final chunk. -/
theorem chunkLayout_closed (f c : ℕ) (hf : 1 ≤ f) (hc : 1 ≤ c) :
    chunkLayout f c =
      List.replicate ((f + c - 1) / c - 1) c ++
        [if f % c = 0 then c else f % c] := by
  have hnum : 1 ≤ (f + c - 1) / c := by
    refine (Nat.le_div_iff_mul_le hc).mpr ?_
    omega
  show ((List.range ((f + c - 1) / c)).map fun j =>
      if j = (f + c - 1) / c - 1 then
        (if f % c = 0 then c else f % c) else c) = _
  rw [range_map_lastIf _ hnum]

/-- A recording no longer than the chunk size forms a single chunk. -/
theorem chunkLayout_small (f c : ℕ) (hf : 1 ≤ f) (hfc : f ≤ c) :
    chunkLayout f c = [f] := by
  have hc : 1 ≤ c := le_trans hf hfc
  rw [chunkLayout_closed f c hf hc]
  have hnum : (f + c - 1) / c = 1 := by
    rw [show f + c - 1 = (f - 1) + c by omega, Nat.add_div_right _ hc,
      Nat.div_eq_of_lt (by omega)]
  rw [hnum]
  simp only [Nat.sub_self, List.replicate_zero, List.nil_append]
  rcases eq_or_lt_of_le hfc with heq | hlt
  · subst heq
    simp [Nat.mod_self]
  · rw [Nat.mod_eq_of_lt hlt, if_neg (by omega)]

/-- A recording longer than the chunk size starts with one full chunk. -/
theorem chunkLayout_step (f c : ℕ) (hc : 1 ≤ c) (h : c < f) :
    chunkLayout f c = c :: chunkLayout (f - c) c := by
  have hf1 : 1 ≤ f - c := by omega
  rw [chunkLayout_closed f c (by omega) hc, chunkLayout_closed (f - c) c hf1 hc]
  have hmod : f % c = (f - c) % c := by
    conv_lhs => rw [show f = (f - c) + c by omega]
    rw [Nat.add_mod_right]
  have hnum : (f + c - 1) / c = ((f - c) + c - 1) / c + 1 := by
    rw [show f + c - 1 = (((f - c) + c - 1)) + c by omega, Nat.add_div_right _ hc]
  have hge1 : 1 ≤ ((f - c) + c - 1) / c := by
    refine (Nat.le_div_iff_mul_le hc).mpr ?_
    omega
  rw [hnum, hmod, show ((f - c) + c - 1) / c + 1 - 1 =
      (((f - c) + c - 1) / c - 1) + 1 by omega,
    List.replicate_succ, List.cons_append]

/-- The chunk lengths sum back to the recording's feature length. -/
theorem chunkLayout_sum (c : ℕ) (hc : 1 ≤ c) :
    ∀ f, 1 ≤ f → (chunkLayout f c).sum = f := by
  intro f
  induction f using Nat.strong_induction_on with
  | _ f ih =>
    intro hf
    rcases le_or_lt f c with hfc | hcf
    · rw [chunkLayout_small f c hf hfc]
      simp
    · rw [chunkLayout_step f c hc hcf, List.sum_cons,
        ih (f - c) (by omega) (by omega)]
      omega

/-- Adding 100 mel frames adds exactly 13 audio embeddings. -/
theorem getFeat_add_100 (L : ℤ) :
    getFeatExtractOutputLengths (L + 100) = getFeatExtractOutputLengths L + 13 := by
  have h2 : (0:ℤ) ≤ 2 := by norm_num
  have h100 : (0:ℤ) ≤ 100 := by norm_num
  simp only [getFeatExtractOutputLengths, floorDiv, Int.fdiv_eq_ediv _ h2,
    Int.fdiv_eq_ediv _ h100]
  omega

/-- With the code's chunk size of 100, the per-chunk output lengths
(computed from the true, unpadded chunk lengths) sum to the whole
recording's output length. -/
theorem chunkLayout_getFeat_sum :
    ∀ f, 1 ≤ f →
      ((chunkLayout f 100).map fun x : ℕ => getFeatExtractOutputLengths (x : ℤ)).sum =
        getFeatExtractOutputLengths (f : ℤ) := by
  intro f
  induction f using Nat.strong_induction_on with
  | _ f ih =>
    intro hf
    rcases le_or_lt f 100 with hfc | hcf
    · rw [chunkLayout_small f 100 hf hfc]
      simp
    · rw [chunkLayout_step f 100 (by norm_num) hcf, List.map_cons, List.sum_cons,
        ih (f - 100) (by omega) (by omega)]
      have hcast : (f : ℤ) = ((f - 100 : ℕ) : ℤ) + 100 := by
        have := Nat.cast_sub (le_of_lt hcf) (R := ℤ)
        omega
      rw [hcast, getFeat_add_100]
      have h100 : getFeatExtractOutputLengths ((100 : ℕ) : ℤ) = 13 := by
        norm_num
        decide
      omega

/-- Monotonicity of the time length of one stride-2 convolution. -/
theorem convLenNat_mono (a b : ℕ) (h : a ≤ b) : convLenNat a ≤ convLenNat b :=
  Nat.add_le_add_right (Nat.div_le_div_right (Nat.sub_le_sub_right h 1)) 1

/-- Monotonicity of the time length of the three convolutions. -/
theorem convLen3_mono (a b : ℕ) (h : a ≤ b) : convLen3 a ≤ convLen3 b :=
  convLenNat_mono _ _ (convLenNat_mono _ _ (convLenNat_mono _ _ h))

/-- On chunk lengths `1..100`, `_get_feat_extract_output_lengths` counts
exactly the time positions surviving the three stride-2 convolutions. -/
theorem getFeat_eq_convLen3_bounded :
    ∀ x : ℕ, x < 100 →
      getFeatExtractOutputLengths ((x + 1 : ℕ) : ℤ) = (convLen3 (x + 1) : ℤ) := by
  decide

/-- The fold initial value is a lower bound of the fold. -/
theorem le_foldl_max_init (l : List ℕ) : ∀ a, a ≤ l.foldl max a := by
  induction l with
  | nil => intro a; exact le_refl a
  | cons x xs ih =>
    intro a
    exact le_trans (le_max_left a x) (ih (max a x))

/-- Every member is bounded by the max fold, mirroring `np.max`. -/
theorem mem_le_foldl_max (l : List ℕ) : ∀ a x, x ∈ l → x ≤ l.foldl max a := by
  induction l with
  | nil => intro a x hx; cases hx
  | cons y ys ih =>
    intro a x hx
    rcases List.mem_cons.mp hx with rfl | hx
    · exact le_trans (le_max_right a x) (le_foldl_max_init ys (max a x))
    · exact ih (max a y) x hx

/-- C9: for every feature length `f ≥ 1` and chunk size `c ≥ 1` the chunk
lengths partition `f` — every chunk except possibly the last has length
`c`, the last has length `f mod c` when that remainder is nonzero and `c`
otherwise, every length lies in `[1, c]`, and the lengths sum to `f`.
With the code's chunk size 100, the per-chunk output-length formula is
applied to the true chunk lengths: it equals the number of convolution
outputs of the true chunk (`convLen3`), is bounded by the padded chunk's
convolution outputs (`convLen3` of the batch max), so slicing each padded
chunk to its formula length keeps exactly the true positions and drops
the padded tail; the per-chunk lengths sum to the recording's total. -/
theorem c9_chunk_layout (f c : ℕ) (hf : 1 ≤ f) (hc : 1 ≤ c) :
    (chunkLayout f c).length = (f + c - 1) / c ∧
    (chunkLayout f c).sum = f ∧
    (∀ x ∈ chunkLayout f c, 1 ≤ x ∧ x ≤ c) ∧
    (∀ i : ℕ, i + 1 < (chunkLayout f c).length → (chunkLayout f c).getD i 0 = c) ∧
    (chunkLayout f c).getD ((chunkLayout f c).length - 1) 0 =
      (if f % c = 0 then c else f % c) ∧
    (c = 100 →
      ((chunkLayout f c).map fun x : ℕ => getFeatExtractOutputLengths (x : ℤ)).sum =
          getFeatExtractOutputLengths (f : ℤ) ∧
      ∀ x ∈ chunkLayout f c,
        getFeatExtractOutputLengths (x : ℤ) = (convLen3 x : ℤ) ∧
        convLen3 x ≤ convLen3 ((chunkLayout f c).foldl max 0)) := by
  have hnum : 1 ≤ (f + c - 1) / c := by
    refine (Nat.le_div_iff_mul_le hc).mpr ?_
    omega
  have hclosed := chunkLayout_closed f c hf hc
  have hlen : (chunkLayout f c).length = (f + c - 1) / c := by
    rw [hclosed]
    simp only [List.length_append, List.length_replicate, List.length_cons,
      List.length_nil]
    omega
  have hmem : ∀ x ∈ chunkLayout f c, x = c ∨ (x = f % c ∧ f % c ≠ 0) := by
    intro x hx
    rw [hclosed, List.mem_append] at hx
    rcases hx with hx | hx
    · exact Or.inl (List.eq_of_mem_replicate hx)
    · simp only [List.mem_singleton] at hx
      by_cases h0 : f % c = 0
      · rw [h0] at hx
        simp at hx
        exact Or.inl hx
      · rw [if_neg h0] at hx
        exact Or.inr ⟨hx, h0⟩
  have hbounds : ∀ x ∈ chunkLayout f c, 1 ≤ x ∧ x ≤ c := by
    intro x hx
    have hmlt := Nat.mod_lt f hc
    rcases hmem x hx with h1 | ⟨h1, hne⟩ <;> omega
  refine ⟨hlen, chunkLayout_sum c hc f hf, hbounds, ?_, ?_, ?_⟩
  · intro i hi
    rw [hlen] at hi
    rw [hclosed, List.getD_append _ _ _ _ (by
      simp only [List.length_replicate]
      omega)]
    rw [List.getD_eq_getElem _ _ (by simp only [List.length_replicate]; omega)]
    simp
  · rw [hclosed]
    have hlenr : (List.replicate ((f + c - 1) / c - 1) c ++
        [if f % c = 0 then c else f % c]).length = (f + c - 1) / c := by
      simp only [List.length_append, List.length_replicate, List.length_cons,
        List.length_nil]
      omega
    rw [hlenr, List.getD_append_right _ _ _ _ (by
      simp only [List.length_replicate]
      omega)]
    simp only [List.length_replicate, Nat.sub_self]
    rfl
  · rintro rfl
    refine ⟨chunkLayout_getFeat_sum f hf, ?_⟩
    intro x hx
    obtain ⟨hx1, hx100⟩ := hbounds x hx
    obtain ⟨y, rfl⟩ : ∃ y, x = y + 1 := ⟨x - 1, by omega⟩
    refine ⟨getFeat_eq_convLen3_bounded y (by omega), ?_⟩
    exact convLen3_mono _ _ (mem_le_foldl_max _ 0 _ hx)

/-- Witness for `c9_chunk_layout` at `f = 250`, `c = 100` (chunks
`[100, 100, 50]`). -/
theorem c9_chunk_layout_witness :
    (chunkLayout 250 100).length = (250 + 100 - 1) / 100 ∧
    (chunkLayout 250 100).sum = 250 ∧
    (∀ x ∈ chunkLayout 250 100, 1 ≤ x ∧ x ≤ 100) ∧
    (∀ i : ℕ, i + 1 < (chunkLayout 250 100).length →
      (chunkLayout 250 100).getD i 0 = 100) ∧
    (chunkLayout 250 100).getD ((chunkLayout 250 100).length - 1) 0 =
      (if 250 % 100 = 0 then 100 else 250 % 100) ∧
    (100 = 100 →
      ((chunkLayout 250 100).map fun x : ℕ => getFeatExtractOutputLengths (x : ℤ)).sum =
          getFeatExtractOutputLengths ((250 : ℕ) : ℤ) ∧
      ∀ x ∈ chunkLayout 250 100,
        getFeatExtractOutputLengths (x : ℤ) = (convLen3 x : ℤ) ∧
        convLen3 x ≤ convLen3 ((chunkLayout 250 100).foldl max 0)) :=
  c9_chunk_layout 250 100 (by norm_num) (by norm_num)

/-- Setting one position leaves every other position unchanged. -/
theorem getD_set_ne (l : List ℤ) (i j : ℕ) (v d : ℤ) (h : i ≠ j) :
    (l.set i v).getD j d = l.getD j d := by
  simp [List.getD_eq_getElem?_getD, List.getElem?_set_ne h]

/-- Setting an in-range position stores the value there. -/
theorem getD_set_self (l : List ℤ) (i : ℕ) (v d : ℤ) (h : i < l.length) :
    (l.set i v).getD i d = v := by
  simp [List.getD_eq_getElem?_getD, List.getElem?_set_self, h]

/-- `addAt` preserves the array length. -/
theorem addAt_length (l : List ℤ) (i : ℕ) (v : ℤ) :
    (addAt l i v).length = l.length := List.length_set l i _

/-- `scatterAdd` preserves the array length. -/
theorem scatterAdd_length (idx : List ℕ) :
    ∀ (vals : List ℤ) (base : List ℤ), (scatterAdd base idx vals).length = base.length := by
  induction idx with
  | nil => intro vals base; rfl
  | cons a as ih =>
    intro vals base
    cases vals with
    | nil => rfl
    | cons v vs =>
      show (scatterAdd (addAt base a v) as vs).length = _
      rw [ih vs (addAt base a v), addAt_length]

/-- A position outside the scattered indices is unchanged. -/
theorem scatterAdd_getD_not_mem (idx : List ℕ) :
    ∀ (vals : List ℤ) (base : List ℤ) (i : ℕ), i ∉ idx →
      (scatterAdd base idx vals).getD i 0 = base.getD i 0 := by
  induction idx with
  | nil => intro vals base i _; rfl
  | cons a as ih =>
    intro vals base i hi
    cases vals with
    | nil => rfl
    | cons v vs =>
      show (scatterAdd (addAt base a v) as vs).getD i 0 = _
      rw [ih vs (addAt base a v) i (fun h => hi (List.mem_cons_of_mem a h))]
      exact getD_set_ne _ _ _ _ _ (fun h => hi (h ▸ List.mem_cons_self a as))

/-- Scattering distinct indices into an array that is zero at the target
position stores exactly the corresponding value there. -/
theorem scatterAdd_getD_mem (idx : List ℕ) :
    ∀ (vals : List ℤ) (base : List ℤ) (j : ℕ), idx.Nodup →
      j < idx.length → j < vals.length → idx.getD j 0 < base.length →
      base.getD (idx.getD j 0) 0 = 0 →
      (scatterAdd base idx vals).getD (idx.getD j 0) 0 = vals.getD j 0 := by
  induction idx with
  | nil => intro vals base j _ hj; cases (Nat.not_lt_zero j) hj
  | cons a as ih =>
    intro vals base j hnd hj hjv hlt hbase
    cases vals with
    | nil => cases (Nat.not_lt_zero j) hjv
    | cons v vs =>
      have hnotmem : a ∉ as := (List.nodup_cons.mp hnd).1
      cases j with
      | zero =>
        show (scatterAdd (addAt base a v) as vs).getD a 0 = v
        rw [scatterAdd_getD_not_mem as vs (addAt base a v) a hnotmem]
        have : (addAt base a v).getD a 0 = base.getD a 0 + v :=
          getD_set_self base a _ 0 (by simpa using hlt)
        rw [this]
        have hb0 : base.getD a 0 = 0 := hbase
        rw [hb0, zero_add]
      | succ j =>
        show (scatterAdd (addAt base a v) as vs).getD (as.getD j 0) 0 = vs.getD j 0
        have hjas : j < as.length := by simpa using hj
        have htmem : as.getD j 0 ∈ as := by
          rw [List.getD_eq_getElem _ _ hjas]
          exact List.getElem_mem hjas
        have htne : as.getD j 0 ≠ a := fun h => hnotmem (h ▸ htmem)
        refine ih vs (addAt base a v) j (List.nodup_cons.mp hnd).2 hjas
          (by simpa using hjv) ?_ ?_
        · rw [addAt_length]
          simpa using hlt
        · show (base.set a (base.getD a 0 + v)).getD (as.getD j 0) 0 = 0
          rw [getD_set_ne base a (as.getD j 0) _ 0 (fun h => htne h.symm)]
          exact hbase
      
/-- `getD` of an in-range position of a range-map. -/
theorem getD_range_map (m : ℕ) (g : ℕ → ℤ) (i : ℕ) (h : i < m) :
    ((List.range m).map g).getD i 0 = g i := by
  rw [List.getD_eq_getElem _ _ (by simp [h])]
  simp

/-- `getD` of a replicated array. -/
theorem getD_replicate_zero (m i : ℕ) (v : ℤ) (h : i < m) :
    (List.replicate m v).getD i 0 = v := by
  rw [List.getD_eq_getElem _ _ (by simpa using h)]
  simp

/-- `getD` commutes with `take` below the cut. -/
theorem getD_take_eq {α : Type} (l : List α) (n j : ℕ) (d : α) (hj : j < n)
    (h2 : j < l.length) : (l.take n).getD j d = l.getD j d := by
  have hb : j < (l.take n).length := by
    rw [List.length_take]
    omega
  rw [List.getD_eq_getElem _ _ hb, List.getD_eq_getElem _ _ h2]
  exact List.getElem_take l

/-- An in-range `getD` of a list is a member. -/
theorem getD_mem_self {α : Type} (l : List α) (j : ℕ) (d : α) (h : j < l.length) :
    l.getD j d ∈ l := by
  rw [List.getD_eq_getElem _ _ h]
  exact List.getElem_mem h

/-- The placeholder positions are ascending (flattened order). -/
theorem audioTokenIndices_sorted (ids : List ℤ) (t : ℤ) :
    (audioTokenIndices ids t).Pairwise (· < ·) :=
  List.Pairwise.sublist (List.filter_sublist _) (List.pairwise_lt_range _)

/-- The placeholder positions are distinct. -/
theorem audioTokenIndices_nodup (ids : List ℤ) (t : ℤ) :
    (audioTokenIndices ids t).Nodup :=
  (List.nodup_range _).filter _

/-- Every placeholder position is an index into the prompt. -/
theorem audioTokenIndices_lt (ids : List ℤ) (t : ℤ) (x : ℕ)
    (hx : x ∈ audioTokenIndices ids t) : x < ids.length :=
  List.mem_range.mp (List.mem_of_mem_filter hx)

/-- Behaviour of the splicing core: the masked range-map writes the
scattered values at the scattered (distinct, in-range) positions and
keeps every other position. -/
theorem spliceCore (tk : List ℕ) (n : ℕ) (embeds vals : List ℤ)
    (hnodup : tk.Nodup) (htk : tk.length = n) (hvals : n ≤ vals.length)
    (hbound : ∀ x ∈ tk, x < embeds.length) :
    ((List.range embeds.length).map fun i =>
        if 0 < (scatterAdd (List.replicate embeds.length 0) tk
            (List.replicate n 1)).getD i 0
        then (scatterAdd (List.replicate embeds.length 0) tk vals).getD i 0
        else embeds.getD i 0).length = embeds.length ∧
    (∀ j, j < n →
      ((List.range embeds.length).map fun i =>
        if 0 < (scatterAdd (List.replicate embeds.length 0) tk
            (List.replicate n 1)).getD i 0
        then (scatterAdd (List.replicate embeds.length 0) tk vals).getD i 0
        else embeds.getD i 0).getD (tk.getD j 0) 0 = vals.getD j 0) ∧
    (∀ i, i < embeds.length → i ∉ tk →
      ((List.range embeds.length).map fun i =>
        if 0 < (scatterAdd (List.replicate embeds.length 0) tk
            (List.replicate n 1)).getD i 0
        then (scatterAdd (List.replicate embeds.length 0) tk vals).getD i 0
        else embeds.getD i 0).getD i 0 = embeds.getD i 0) := by
  refine ⟨by simp, ?_, ?_⟩
  · intro j hj
    have hjtk : j < tk.length := by omega
    have htmem : tk.getD j 0 ∈ tk := getD_mem_self tk j 0 hjtk
    have htlt : tk.getD j 0 < embeds.length := hbound _ htmem
    rw [getD_range_map _ _ _ htlt]
    have hmask : (scatterAdd (List.replicate embeds.length 0) tk
        (List.replicate n 1)).getD (tk.getD j 0) 0 = 1 := by
      rw [scatterAdd_getD_mem tk (List.replicate n 1)
        (List.replicate embeds.length 0) j hnodup hjtk
        (by simpa using hj) (by simpa using htlt)
        (getD_replicate_zero _ _ _ htlt)]
      exact getD_replicate_zero _ _ _ hj
    rw [hmask, if_pos (by norm_num : (0:ℤ) < 1)]
    exact scatterAdd_getD_mem tk vals (List.replicate embeds.length 0) j hnodup hjtk
      (by omega) (by simpa using htlt) (getD_replicate_zero _ _ _ htlt)
  · intro i hi hnot
    rw [getD_range_map _ _ _ hi]
    have hmask : (scatterAdd (List.replicate embeds.length 0) tk
        (List.replicate n 1)).getD i 0 = 0 := by
      rw [scatterAdd_getD_not_mem tk _ _ i hnot]
      exact getD_replicate_zero _ _ _ hi
    rw [hmask, if_neg (by norm_num)]

/-- C4: the splicing step of `transcribe_audio` replaces exactly
`min(P, E)` embeddings — the first `min(P, E)` placeholder positions in
flattened (ascending) order receive the first `min(P, E)` audio
embeddings, matched by position — is a total function (no error is raised
when `P` differs from `E`), and leaves the embedding at every other
position unchanged. -/
theorem c4_splice_truncates (audioTokenId : ℤ) (ids embeds audio : List ℤ)
    (hlen : embeds.length = ids.length) :
    (spliceAudioEmbeddings audioTokenId ids embeds audio).length = embeds.length ∧
    (audioTokenIndices ids audioTokenId).Pairwise (· < ·) ∧
    (∀ j, j < min (audioTokenIndices ids audioTokenId).length audio.length →
      (spliceAudioEmbeddings audioTokenId ids embeds audio).getD
          ((audioTokenIndices ids audioTokenId).getD j 0) 0 = audio.getD j 0) ∧
    (∀ i, i < embeds.length →
      i ∉ (audioTokenIndices ids audioTokenId).take
            (min (audioTokenIndices ids audioTokenId).length audio.length) →
      (spliceAudioEmbeddings audioTokenId ids embeds audio).getD i 0 =
        embeds.getD i 0) := by
  by_cases hpos : 0 < (audioTokenIndices ids audioTokenId).length
  · have htk : ((audioTokenIndices ids audioTokenId).take
        (min (audioTokenIndices ids audioTokenId).length audio.length)).length =
        min (audioTokenIndices ids audioTokenId).length audio.length := by
      rw [List.length_take]
      omega
    have hnodup : ((audioTokenIndices ids audioTokenId).take
        (min (audioTokenIndices ids audioTokenId).length audio.length)).Nodup :=
      (audioTokenIndices_nodup ids audioTokenId).sublist (List.take_sublist _ _)
    have hvals : min (audioTokenIndices ids audioTokenId).length audio.length ≤
        (audio.take (min (audioTokenIndices ids audioTokenId).length
          audio.length)).length := by
      rw [List.length_take]
      omega
    have hbound : ∀ x ∈ (audioTokenIndices ids audioTokenId).take
        (min (audioTokenIndices ids audioTokenId).length audio.length),
        x < embeds.length := by
      intro x hx
      rw [hlen]
      exact audioTokenIndices_lt ids audioTokenId x (List.mem_of_mem_take hx)
    obtain ⟨hA, hB, hC⟩ := spliceCore
      ((audioTokenIndices ids audioTokenId).take
        (min (audioTokenIndices ids audioTokenId).length audio.length))
      (min (audioTokenIndices ids audioTokenId).length audio.length)
      embeds
      (audio.take (min (audioTokenIndices ids audioTokenId).length audio.length))
      hnodup htk hvals hbound
    refine ⟨?_, audioTokenIndices_sorted ids audioTokenId, ?_, ?_⟩
    · simp only [spliceAudioEmbeddings, if_pos hpos]
      exact hA
    · intro j hj
      simp only [spliceAudioEmbeddings, if_pos hpos]
      have hjP : j < (audioTokenIndices ids audioTokenId).length := by omega
      have hjE : j < audio.length := by omega
      have h1 := hB j hj
      rw [getD_take_eq _ _ j (0:ℕ) hj hjP] at h1
      rw [getD_take_eq _ _ j (0:ℤ) hj hjE] at h1
      exact h1
    · intro i hi hnot
      simp only [spliceAudioEmbeddings, if_pos hpos]
      exact hC i hi hnot
  · refine ⟨?_, audioTokenIndices_sorted ids audioTokenId, ?_, ?_⟩
    · simp only [spliceAudioEmbeddings, if_neg hpos]
    · intro j hj
      omega
    · intro i hi hnot
      simp only [spliceAudioEmbeddings, if_neg hpos]

/-- Witness for `c4_splice_truncates`: prompt ids `[1, 7, 2, 7, 7]` with
pad id 7 (three placeholders), embeddings `[10, 20, 30, 40, 50]`, and
two audio vectors `[100, 200]` (so `min(P, E) = 2`). -/
theorem c4_splice_truncates_witness :
    (spliceAudioEmbeddings 7 [1, 7, 2, 7, 7] [10, 20, 30, 40, 50] [100, 200]).length =
      ([10, 20, 30, 40, 50] : List ℤ).length ∧
    (audioTokenIndices [1, 7, 2, 7, 7] 7).Pairwise (· < ·) ∧
    (∀ j, j < min (audioTokenIndices [1, 7, 2, 7, 7] 7).length
        ([100, 200] : List ℤ).length →
      (spliceAudioEmbeddings 7 [1, 7, 2, 7, 7] [10, 20, 30, 40, 50] [100, 200]).getD
          ((audioTokenIndices [1, 7, 2, 7, 7] 7).getD j 0) 0 =
        ([100, 200] : List ℤ).getD j 0) ∧
    (∀ i, i < ([10, 20, 30, 40, 50] : List ℤ).length →
      i ∉ (audioTokenIndices [1, 7, 2, 7, 7] 7).take
            (min (audioTokenIndices [1, 7, 2, 7, 7] 7).length
              ([100, 200] : List ℤ).length) →
      (spliceAudioEmbeddings 7 [1, 7, 2, 7, 7] [10, 20, 30, 40, 50] [100, 200]).getD
          i 0 = ([10, 20, 30, 40, 50] : List ℤ).getD i 0) :=
  c4_splice_truncates 7 [1, 7, 2, 7, 7] [10, 20, 30, 40, 50] [100, 200] (by decide)

/-- C5, counterexample: with a configured group size of 128, a text-model
linear module whose weight has 64 elements (not a multiple of 128) and
whose scales key is present is nevertheless quantized — `class_predicate`
checks the hardcoded constant 64, not the configured group size. -/
theorem c5_counterexample :
    quantizeApplied (QuantConfig.mk 128 4) [modelKeyStr ++ scalesSuffix] modelKeyStr
      (QuantModuleInfo.mk true (some 64)) = true ∧
    ¬ (64 % 128 = 0) ∧
    audioTowerName.toList.isPrefixOf modelKeyStr.toList = false := by
  refine ⟨by decide, by decide, by decide⟩

/-- C5, amended: a weight tensor is quantized only if its module supports
quantization, its path is not inside the audio tower, quantized scales
for it are present in the loaded weights, and — when the module has a
weight — its element count is a multiple of the hardcoded constant 64
(which coincides with the configured group size only when that group size
is 64). -/
theorem c5_quantization_amended (cfg : QuantConfig) (weightKeys : List String)
    (path : String) (m : QuantModuleInfo)
    (h : quantizeApplied cfg weightKeys path m = true) :
    m.supportsToQuantized = true ∧
    audioTowerName.toList.isPrefixOf path.toList = false ∧
    weightKeys.contains (path ++ scalesSuffix) = true ∧
    (∀ s, m.weightSize = some s → s % 64 = 0) := by
  simp only [quantizeApplied, classPredicateQuant] at h
  by_cases h1 : m.supportsToQuantized = false
  · rw [if_pos h1] at h
    simp at h
  · rw [if_neg h1] at h
    by_cases h2 : (m.weightSize.elim false fun s => s % 64 != 0) = true
    · rw [if_pos h2] at h
      simp at h
    · rw [if_neg h2] at h
      by_cases h3 : (audioTowerName.toList.isPrefixOf path.toList) = true
      · rw [if_pos h3] at h
        simp at h
      · rw [if_neg h3] at h
        refine ⟨by simpa using h1, by rw [← Bool.not_eq_true]; exact h3, h, ?_⟩
        intro s hs
        rw [hs] at h2
        simp only [Option.elim] at h2
        simp at h2
        exact h2

/-- Witness for `c5_quantization_amended`: group size 64, a supported
text-model module with a 128-element weight and its scales present. -/
theorem c5_quantization_amended_witness :
    (QuantModuleInfo.mk true (some 128)).supportsToQuantized = true ∧
    audioTowerName.toList.isPrefixOf modelKeyStr.toList = false ∧
    ([modelKeyStr ++ scalesSuffix].contains (modelKeyStr ++ scalesSuffix)) = true ∧
    (∀ s, (QuantModuleInfo.mk true (some 128)).weightSize = some s → s % 64 = 0) :=
  c5_quantization_amended (QuantConfig.mk 64 4) [modelKeyStr ++ scalesSuffix]
    modelKeyStr (QuantModuleInfo.mk true (some 128)) (by decide)

/-- One step of the read loop. -/
theorem runServer_cons (env : ServerEnv) (l : StdinLine) (ls : List StdinLine) :
    runServer env (l :: ls) =
      (handleLine env l).1 ++
        (if (handleLine env l).2 then runServer env ls else []) := rfl

/-- C6: a line that is invalid JSON, or an object with an unknown `cmd`,
or an object with neither a `cmd` key nor a non-empty `wav` value,
produces exactly one error object, the loop continues, and a subsequent
`{"cmd": "ping"}` is still answered with the ready status. -/
theorem c6_malformed_line (env : ServerEnv) (l : StdinLine) (pingReq : JsonRequest)
    (rest : List StdinLine) (hl : isMalformedLine l)
    (hp : pingReq.cmd = some pingCmd) :
    ∃ e : ProtoError,
      handleLine env l = ([ServerEvent.outError e], true) ∧
      runServer env (l :: StdinLine.request pingReq :: rest) =
        ServerEvent.outError e :: ServerEvent.outReady :: runServer env rest := by
  have hping : handleLine env (StdinLine.request pingReq) =
      ([ServerEvent.outReady], true) := by
    show handleRequest env pingReq = _
    simp [handleRequest, hp]
  have hone : ∃ e : ProtoError, handleLine env l = ([ServerEvent.outError e], true) := by
    cases l with
    | blank => cases hl
    | invalidJson raw => exact ⟨ProtoError.invalidJson raw, rfl⟩
    | request r =>
      rcases hl with ⟨c, hc, hcp, hcq⟩ | ⟨hc, hw⟩
      · refine ⟨ProtoError.unknownCommand c, ?_⟩
        show handleRequest env r = _
        simp only [handleRequest, hc]
        rw [if_neg hcp, if_neg hcq]
      · refine ⟨ProtoError.missingWav, ?_⟩
        show handleRequest env r = _
        simp only [handleRequest, hc, hw]
  obtain ⟨e, he⟩ := hone
  refine ⟨e, he, ?_⟩
  rw [runServer_cons, he, runServer_cons, hping]
  simp

/-- C7: a transcription request whose WAV file is missing, or is not
mono, not 16-bit, or not 16000 Hz, yields a single error object, no
inference event, and the loop continues over the same (unchanged,
read-only) environment. -/
theorem c7_invalid_wav (env : ServerEnv) (r : JsonRequest) (path : String)
    (rest : List StdinLine) (hcmd : r.cmd = none) (hw : truthyWav r.wav = some path)
    (hbad : badWavAt env.fs path) :
    ∃ e : LoadWavError,
      handleLine env (StdinLine.request r) =
        ([ServerEvent.outError (ProtoError.wavError e)], true) ∧
      ServerEvent.ranInference ∉ (handleLine env (StdinLine.request r)).1 ∧
      runServer env (StdinLine.request r :: rest) =
        ServerEvent.outError (ProtoError.wavError e) :: runServer env rest := by
  have hload : ∃ e, loadWav env.fs path = Except.error e := by
    rcases hbad with hnone | ⟨w, hsome, hbadw⟩
    · exact ⟨LoadWavError.fileNotFound path, by simp [loadWav, hnone]⟩
    · by_cases h1 : w.nchannels ≠ 1
      · refine ⟨LoadWavError.notMono w.nchannels, ?_⟩
        simp only [loadWav, hsome]
        rw [if_pos h1]
      · by_cases h2 : w.sampwidth ≠ 2
        · refine ⟨LoadWavError.not16Bit w.sampwidth, ?_⟩
          simp only [loadWav, hsome]
          rw [if_neg h1, if_pos h2]
        · have h3 : w.framerate ≠ 16000 := by
            rcases hbadw with h | h | h
            · exact absurd h h1
            · exact absurd h h2
            · exact h
          refine ⟨LoadWavError.not16kHz w.framerate, ?_⟩
          simp only [loadWav, hsome]
          rw [if_neg h1, if_neg h2, if_pos h3]
  obtain ⟨e, he⟩ := hload
  have h1 : handleLine env (StdinLine.request r) =
      ([ServerEvent.outError (ProtoError.wavError e)], true) := by
    show handleRequest env r = _
    simp only [handleRequest, hcmd, hw, he]
  refine ⟨e, h1, ?_, ?_⟩
  · rw [h1]
    simp
  · rw [runServer_cons, h1]
    simp

/-- C8: after a `{"cmd": "quit"}` line the read loop terminates and no
further event (in particular no output line) is produced, whatever input
follows. -/
theorem c8_quit_terminates (env : ServerEnv) (r : JsonRequest)
    (rest : List StdinLine) (h : r.cmd = some quitCmd) :
    handleLine env (StdinLine.request r) = ([], false) ∧
    runServer env (StdinLine.request r :: rest) = [] := by
  have h1 : handleLine env (StdinLine.request r) = ([], false) := by
    show handleRequest env r = _
    simp only [handleRequest, h]
    simp [pingCmd, quitCmd]
  refine ⟨h1, ?_⟩
  rw [runServer_cons, h1]
  simp

/-- C10: a stdin line that is empty or all-whitespace after stripping is
classified as blank, produces no output event at all, and the loop
silently proceeds to the next line. -/
theorem c10_blank_line (env : ServerEnv) (s : String)
    (decodeJson : String → Option JsonRequest) (rest : List StdinLine)
    (hs : stripsToBlank s = true) :
    classifyLine decodeJson s = StdinLine.blank ∧
    handleLine env StdinLine.blank = ([], true) ∧
    runServer env (StdinLine.blank :: rest) = runServer env rest := by
  refine ⟨by simp [classifyLine, hs], rfl, ?_⟩
  rw [runServer_cons]
  simp [handleLine]

/-- Witness for `c6_malformed_line`: an undecodable line followed by a
ping, with an empty filesystem. -/
theorem c6_malformed_line_witness :
    ∃ e : ProtoError,
      handleLine (ServerEnv.mk (fun _ => none) (fun _ _ => emptyStr))
          (StdinLine.invalidJson emptyStr) = ([ServerEvent.outError e], true) ∧
      runServer (ServerEnv.mk (fun _ => none) (fun _ _ => emptyStr))
          (StdinLine.invalidJson emptyStr ::
            StdinLine.request (JsonRequest.mk (some pingCmd) none none) :: []) =
        ServerEvent.outError e :: ServerEvent.outReady ::
          runServer (ServerEnv.mk (fun _ => none) (fun _ _ => emptyStr)) [] :=
  c6_malformed_line (ServerEnv.mk (fun _ => none) (fun _ _ => emptyStr))
    (StdinLine.invalidJson emptyStr) (JsonRequest.mk (some pingCmd) none none) []
    trivial rfl

/-- Witness for `c7_invalid_wav`: a request for a missing file on an
empty filesystem. -/
theorem c7_invalid_wav_witness :
    ∃ e : LoadWavError,
      handleLine (ServerEnv.mk (fun _ => none) (fun _ _ => emptyStr))
          (StdinLine.request (JsonRequest.mk none (some spacesStr) none)) =
        ([ServerEvent.outError (ProtoError.wavError e)], true) ∧
      ServerEvent.ranInference ∉
        (handleLine (ServerEnv.mk (fun _ => none) (fun _ _ => emptyStr))
          (StdinLine.request (JsonRequest.mk none (some spacesStr) none))).1 ∧
      runServer (ServerEnv.mk (fun _ => none) (fun _ _ => emptyStr))
          (StdinLine.request (JsonRequest.mk none (some spacesStr) none) :: []) =
        ServerEvent.outError (ProtoError.wavError e) ::
          runServer (ServerEnv.mk (fun _ => none) (fun _ _ => emptyStr)) [] :=
  c7_invalid_wav (ServerEnv.mk (fun _ => none) (fun _ _ => emptyStr))
    (JsonRequest.mk none (some spacesStr) none) spacesStr [] rfl (by decide)
    (Or.inl rfl)

/-- Witness for `c8_quit_terminates`: a quit request followed by a ping
that is never processed. -/
theorem c8_quit_terminates_witness :
    handleLine (ServerEnv.mk (fun _ => none) (fun _ _ => emptyStr))
        (StdinLine.request (JsonRequest.mk (some quitCmd) none none)) = ([], false) ∧
    runServer (ServerEnv.mk (fun _ => none) (fun _ _ => emptyStr))
        (StdinLine.request (JsonRequest.mk (some quitCmd) none none) ::
          StdinLine.request (JsonRequest.mk (some pingCmd) none none) :: []) = [] :=
  c8_quit_terminates (ServerEnv.mk (fun _ => none) (fun _ _ => emptyStr))
    (JsonRequest.mk (some quitCmd) none none)
    [StdinLine.request (JsonRequest.mk (some pingCmd) none none)] rfl

/-- Witness for `c10_blank_line`: an all-whitespace line. -/
theorem c10_blank_line_witness :
    classifyLine (fun _ => none) spacesStr = StdinLine.blank ∧
    handleLine (ServerEnv.mk (fun _ => none) (fun _ _ => emptyStr))
        StdinLine.blank = ([], true) ∧
    runServer (ServerEnv.mk (fun _ => none) (fun _ _ => emptyStr))
        (StdinLine.blank :: []) =
      runServer (ServerEnv.mk (fun _ => none) (fun _ _ => emptyStr)) [] :=
  c10_blank_line (ServerEnv.mk (fun _ => none) (fun _ _ => emptyStr)) spacesStr
    (fun _ => none) [] (by decide)
